import Mathlib

/-!
A verification development for the bilinguo vocabulary manager
(`bilinguo.py`).  The Python core — string normalization, tokenization,
the SQLite-backed word store and its merge operations, the translation
gateway and the Anki export selection — is shallowly embedded as
executable Lean definitions.  Python strings are modelled as Lean
`String`s (lists of characters); the character-class predicates of the
source's regular expressions (`\w`, `[A-Za-z]`, whitespace) are modelled
at the ASCII level via code points.  The SQLite `words` table is a list
of records plus the AUTOINCREMENT counter; each SQL statement of the
source is translated to the corresponding pure list operation.
-/

/-! ### Python string primitives, embedded at the character-list level -/

/-- The whitespace characters stripped by Python's `str.strip()`
(ASCII range: space, tab, newline, carriage return, vertical tab, form feed). -/
def isSpaceChar (c : Char) : Bool :=
  c.toNat = 32 || c.toNat = 9 || c.toNat = 10 || c.toNat = 13 ||
  c.toNat = 11 || c.toNat = 12

/-- Drop a trailing run of characters satisfying `p`. -/
def dropTrailing (p : Char → Bool) (l : List Char) : List Char :=
  (l.reverse.dropWhile p).reverse

/-- Drop the leading and the trailing run of characters satisfying `p`. -/
def trimEnds (p : Char → Bool) (l : List Char) : List Char :=
  dropTrailing p (l.dropWhile p)

/-- Python's `str.strip()`. -/
def pyStrip (s : String) : String :=
  ⟨trimEnds isSpaceChar s.data⟩

/-- Python's `s.split(" | ")` on character lists: scan left to right,
cutting at each leftmost non-overlapping occurrence of `' ', '|', ' '`.
The source splits stored translation columns on this separator. -/
def splitOnSpacedPipe : List Char → List (List Char)
  | ' ' :: '|' :: ' ' :: rest => [] :: splitOnSpacedPipe rest
  | c :: rest =>
    match splitOnSpacedPipe rest with
    | [] => [[c]]
    | p :: ps => (c :: p) :: ps
  | [] => [[]]

/-- Python's `s.split("|")` on character lists.  The source splits the
text of the translations edit box on a bare pipe. -/
def splitOnPipe : List Char → List (List Char)
  | '|' :: rest => [] :: splitOnPipe rest
  | c :: rest =>
    match splitOnPipe rest with
    | [] => [[c]]
    | p :: ps => (c :: p) :: ps
  | [] => [[]]

/-- Python's `s.split(" | ")`, lifted to `String`. -/
def pySplitSpacedPipe (s : String) : List String :=
  (splitOnSpacedPipe s.data).map fun l => ⟨l⟩

/-- Python's `s.split("|")`, lifted to `String`. -/
def pySplitPipe (s : String) : List String :=
  (splitOnPipe s.data).map fun l => ⟨l⟩

/-- Core of Python's `sep.join(pieces)`. -/
def joinCore (sep : List Char) : List (List Char) → List Char
  | [] => []
  | [x] => x
  | x :: y :: ys => x ++ sep ++ joinCore sep (y :: ys)

/-- Python's `sep.join(pieces)`. -/
def pyJoin (sep : String) (l : List String) : String :=
  ⟨joinCore sep.data (l.map String.data)⟩

/-- Python's string `<`: lexicographic comparison by code point. -/
def lexLt : List Char → List Char → Bool
  | _, [] => false
  | [], _ :: _ => true
  | a :: as, b :: bs =>
    if a.toNat < b.toNat then true
    else if b.toNat < a.toNat then false
    else lexLt as bs

/-- Python's string comparison, lifted to `String`. -/
def pyStrLt (a b : String) : Bool := lexLt a.data b.data

/-! ### The bilinguo core functions -/

/-- Model of the regex class `\w` under `flags=re.UNICODE` (word
characters: letters, digits, underscore).  The model is exact on the
code points the theorems below range over: the ASCII block, plus
U+0130 (`İ`, a Unicode letter, hence a word character) and U+0307
(COMBINING DOT ABOVE, category Mn, *not* a word character).  The full
Unicode word-character table is beyond the embedding, so every theorem
about the normalizer confines its domain to these code points. -/
def isWordChar (c : Char) : Bool :=
  (65 ≤ c.toNat && c.toNat ≤ 90) || (97 ≤ c.toNat && c.toNat ≤ 122) ||
  (48 ≤ c.toNat && c.toNat ≤ 57) || c.toNat = 95 || c.toNat = 304

/-- The characters kept at token edges by `normalize_word`'s
`re.sub(r"^[^\w']+|[^\w']+$", ...)`: word characters and the apostrophe. -/
def keepChar (c : Char) : Bool := isWordChar c || c.toNat = 39

/-- The regex class `[A-Za-z]` used by the tokenizer. -/
def asciiAlpha (c : Char) : Bool :=
  (65 ≤ c.toNat && c.toNat ≤ 90) || (97 ≤ c.toNat && c.toNat ≤ 122)

/-- The quote folding of `normalize_word`: right single quote to
apostrophe, left/right double quotes to plain double quote. -/
def foldQuotes (c : Char) : Char :=
  if c = '’' then '\'' else if c = '“' then '"' else if c = '”' then '"' else c

/-- Python's `str.lower()` on one character, as a *string-level* map:
`lower` can expand a character (Unicode SpecialCasing).  Modelled
exactly on ASCII (`A`–`Z` shift by 32) and on U+0130 (`İ`), whose
lowercase is the two-character sequence `i` (U+0069) followed by
COMBINING DOT ABOVE (U+0307); other code points are left unchanged,
which is exact for all remaining code points the theorems range over. -/
def lowerChar (c : Char) : List Char :=
  if c.toNat = 304 then [Char.ofNat 105, Char.ofNat 775] else [Char.toLower c]

/-- `normalize_word` on character lists: strip whitespace, fold
typographic quotes, strip edge characters outside `[\w']`, then apply
Python's string-level `lower()`. -/
def normChars (l : List Char) : List Char :=
  (trimEnds (fun c => !keepChar c) ((trimEnds isSpaceChar l).map foldQuotes)).flatMap
    lowerChar

/-- `normalize_word` from `bilinguo.py`. -/
def normalize_word (s : String) : String := ⟨normChars s.data⟩

/-- Worker for `alphaRuns`: `cur` is the reversed letter run currently
being collected. -/
def alphaRunsGo (cur : List Char) : List Char → List (List Char)
  | [] => if cur = [] then [] else [cur.reverse]
  | c :: cs =>
    if asciiAlpha c then alphaRunsGo (c :: cur) cs
    else if cur = [] then alphaRunsGo [] cs
    else cur.reverse :: alphaRunsGo [] cs

/-- `re.findall(r"[A-Za-z]+", text)`: the maximal runs of ASCII letters. -/
def alphaRuns (l : List Char) : List (List Char) :=
  alphaRunsGo [] l

/-- `tokenize_text_to_unique_words` from `bilinguo.py`: normalize each
letter run, keep those of length at least `min_len`, and return the
distinct survivors sorted (Python's `sorted` over a `set`). -/
def tokenize_text_to_unique_words (text : String) (min_len : Nat) : List String :=
  let tokens := (alphaRuns text.data).map fun r => normalize_word ⟨r⟩
  List.insertionSort (fun a b => pyStrLt b a = false)
    ((tokens.filter fun n => min_len ≤ n.length).dedup)

/-! ### The word store -/

/-- One row of the SQLite `words` table. -/
structure WordRec where
  id : Nat
  word : String
  translations : String
  added_at : String
  anki_created : Bool
deriving DecidableEq, Repr

/-- The `words` table together with its AUTOINCREMENT counter. -/
structure Store where
  recs : List WordRec
  nextId : Nat
deriving DecidableEq, Repr

/-- A freshly created database (AUTOINCREMENT ids start at 1). -/
def emptyStore : Store := ⟨[], 1⟩

/-- The translation list a stored record denotes: the non-empty pieces
of the `translations` column split on `" | "` (the parsing both
`db_add_or_update_word` and `db_update_translations_for_id` perform). -/
def transParts (t : String) : List String :=
  (pySplitSpacedPipe t).filter fun p => p != ""

/-- `db_add_or_update_word` from `bilinguo.py`; `now` stands for the
timestamp `datetime.now().strftime(...)` captured at the call. -/
def db_add_or_update_word (s : Store) (word translation now : String) : Store :=
  if word = "" then s
  else
    match s.recs.find? (fun r => r.word == pyStrip word) with
    | some row =>
      if translation ≠ "" ∧ translation ∉ transParts row.translations then
        { s with recs := s.recs.map fun r =>
            if r.word = pyStrip word then
              { r with
                translations := pyJoin " | " (transParts row.translations ++ [translation]),
                anki_created := false }
            else r }
      else s
    | none =>
      { recs := s.recs ++ [⟨s.nextId, pyStrip word, translation, now, false⟩],
        nextId := s.nextId + 1 }

/-- The pieces extracted from the edit box text by
`db_update_translations_for_id`: split on `"|"`, strip each piece,
discard the empty ones. -/
def newPieces (text : String) : List String :=
  ((pySplitPipe text).map pyStrip).filter fun p => p != ""

/-- `db_update_translations_for_id` from `bilinguo.py`. -/
def db_update_translations_for_id (s : Store) (rowid : Nat)
    (translations_text : String) : Store :=
  match s.recs.find? (fun r => r.id == rowid) with
  | none => s
  | some r =>
    if pyJoin " | " ((newPieces translations_text).foldl
        (fun acc np => if np ∈ acc then acc else acc ++ [np])
        (transParts r.translations)) ≠ r.translations then
      { s with recs := s.recs.map fun q =>
          if q.id = rowid then
            { q with
              translations := pyJoin " | " ((newPieces translations_text).foldl
                (fun acc np => if np ∈ acc then acc else acc ++ [np])
                (transParts r.translations)),
              anki_created := false }
          else q }
    else s

/-- `db_set_anki_created_for_word` from `bilinguo.py`. -/
def db_set_anki_created_for_word (s : Store) (word : String) : Store :=
  { s with recs := s.recs.map fun r =>
      if r.word = word then { r with anki_created := true } else r }

/-- `db_reset_anki_flags` from `bilinguo.py`. -/
def db_reset_anki_flags (s : Store) : Store :=
  { s with recs := s.recs.map fun r => { r with anki_created := false } }

/-- `db_delete_words` from `bilinguo.py`. -/
def db_delete_words (s : Store) (ids : List Nat) : Store :=
  if ids = [] then s
  else { s with recs := s.recs.filter fun r => r.id ∉ ids }

/-- The row selection of `VocabWindow.export_anki`:
`SELECT word, translations FROM words WHERE anki_created=0 LIMIT ?`. -/
def selectForExport (s : Store) (limit : Nat) : List (String × String) :=
  ((s.recs.filter fun r => !r.anki_created).take limit).map fun r =>
    (r.word, r.translations)

/-- The store effect of `VocabWindow.export_anki`: after writing each
selected row to the CSV, mark its word as exported. -/
def export_anki (s : Store) (limit : Nat) : Store :=
  (selectForExport s limit).foldl (fun st p => db_set_anki_created_for_word st p.1) s

/-! ### The translation gateway -/

/-- What `translate_online_mymemory` sees of the provider's reply:
the HTTP status, and `responseData.translatedText` when the JSON body
carries that field. -/
structure ProviderReply where
  status : Nat
  translatedText : Option String
deriving DecidableEq, Repr

/-- `translate_online_mymemory` from `bilinguo.py`; `reply = none`
models a network error or timeout (the `except` path). -/
def translate_online_mymemory (word : String) (reply : Option ProviderReply) :
    Option String :=
  match reply with
  | none => none
  | some r =>
    if r.status = 200 then
      match r.translatedText with
      | some tr => if tr ≠ "" ∧ tr ≠ word then some tr else none
      | none => none
    else none

/-- `TranslationManager.translate` from `bilinguo.py`: on a successful
fetch, upsert the translation and report success; otherwise leave the
store alone and report failure. -/
def TranslationManager.translate (s : Store) (word : String)
    (reply : Option ProviderReply) (now : String) : Store × Bool :=
  match translate_online_mymemory word reply with
  | some tr => (db_add_or_update_word s word tr now, true)
  | none => (s, false)

/-! ### Operation sequences over the store -/

/-- The store mutations exposed by the database layer. -/
inductive StoreOp where
  | upsert (word translation now : String)
  | merge (id : Nat) (text : String)
  | mark (word : String)
  | resetFlags
  | delete (ids : List Nat)
deriving DecidableEq, Repr

/-- Interpret one store operation. -/
def applyOp (s : Store) : StoreOp → Store
  | .upsert w t now => db_add_or_update_word s w t now
  | .merge id txt => db_update_translations_for_id s id txt
  | .mark w => db_set_anki_created_for_word s w
  | .resetFlags => db_reset_anki_flags s
  | .delete ids => db_delete_words s ids

/-- Interpret a sequence of store operations from the given store. -/
def runOps (s : Store) (ops : List StoreOp) : Store :=
  ops.foldl applyOp s

/-- The creation-time fields of a record: surrogate id, word key and
`added_at` timestamp — the fields assigned once at insertion. -/
def recKey (r : WordRec) : Nat × String × String := (r.id, r.word, r.added_at)

/-- Arguments under which the store's column encoding is faithful: an
upsert translation must not embed a pipe character (the stored column
is a pipe-delimited string, so a pipe inside a piece changes how the
column re-parses). -/
def goodOp : StoreOp → Prop
  | .upsert _ t _ => '|' ∉ t.data
  | _ => True

/-- The translation-list invariant established by the store operations:
every record's parsed translation list consists of pipe-free pieces
with no exact duplicate. -/
def storeInv (s : Store) : Prop :=
  ∀ r ∈ s.recs, (transParts r.translations).Nodup ∧
    ∀ p ∈ transParts r.translations, '|' ∉ p.data

/-- A demonstration store holding five unexported and three exported
records, as in the spec's export-selection scenario. -/
def demoStore : Store :=
  ⟨[⟨1, "w1", "t1", "d1", false⟩, ⟨2, "w2", "t2", "d2", true⟩,
    ⟨3, "w3", "t3", "d3", false⟩, ⟨4, "w4", "t4", "d4", false⟩,
    ⟨5, "w5", "t5", "d5", true⟩, ⟨6, "w6", "t6", "d6", false⟩,
    ⟨7, "w7", "t7", "d7", true⟩, ⟨8, "w8", "t8", "d8", false⟩], 9⟩

/-! ### Character-level lemmas -/

theorem charToNat_inj {a b : Char} (h : a.toNat = b.toNat) : a = b :=
  Char.ext (UInt32.ext h)

theorem toNat_ofNat_small {n : Nat} (h : n < 55296) : (Char.ofNat n).toNat = n := by
  unfold Char.ofNat
  rw [dif_pos (Or.inl h)]
  rfl

/-- `Char.toLower` either adds 32 to an upper-case ASCII letter's code
point or fixes the character. -/
theorem toLower_spec (c : Char) :
    (65 ≤ c.toNat ∧ c.toNat ≤ 90 ∧ (Char.toLower c).toNat = c.toNat + 32) ∨
    (¬(65 ≤ c.toNat ∧ c.toNat ≤ 90) ∧ Char.toLower c = c) := by
  unfold Char.toLower
  simp only []
  by_cases h : c.toNat ≥ 65 ∧ c.toNat ≤ 90
  · left
    rw [if_pos h]
    exact ⟨h.1, h.2, toNat_ofNat_small (by omega)⟩
  · right
    rw [if_neg h]
    exact ⟨fun hc => h ⟨hc.1, hc.2⟩, rfl⟩

theorem keepChar_iff {c : Char} :
    keepChar c = true ↔
      (65 ≤ c.toNat ∧ c.toNat ≤ 90) ∨ (97 ≤ c.toNat ∧ c.toNat ≤ 122) ∨
      (48 ≤ c.toNat ∧ c.toNat ≤ 57) ∨ c.toNat = 95 ∨ c.toNat = 304 ∨
      c.toNat = 39 := by
  simp [keepChar, isWordChar, Bool.or_eq_true, decide_eq_true_eq]
  omega

theorem asciiAlpha_iff {c : Char} :
    asciiAlpha c = true ↔
      (65 ≤ c.toNat ∧ c.toNat ≤ 90) ∨ (97 ≤ c.toNat ∧ c.toNat ≤ 122) := by
  simp [asciiAlpha, Bool.or_eq_true, decide_eq_true_eq]

theorem isSpaceChar_iff {c : Char} :
    isSpaceChar c = true ↔
      c.toNat = 32 ∨ c.toNat = 9 ∨ c.toNat = 10 ∨ c.toNat = 13 ∨
      c.toNat = 11 ∨ c.toNat = 12 := by
  simp [isSpaceChar, Bool.or_eq_true, decide_eq_true_eq]
  omega

theorem keepChar_toLower {c : Char} (h : keepChar c = true) :
    keepChar (Char.toLower c) = true := by
  rcases toLower_spec c with ⟨h1, h2, h3⟩ | ⟨_, h2⟩
  · rw [keepChar_iff, h3]
    omega
  · rwa [h2]

theorem not_space_of_keepChar {c : Char} (h : keepChar c = true) :
    isSpaceChar c = false := by
  rw [keepChar_iff] at h
  rw [← Bool.not_eq_true, isSpaceChar_iff]
  omega

theorem toLower_idem (c : Char) : Char.toLower (Char.toLower c) = Char.toLower c := by
  rcases toLower_spec c with ⟨ha, hb, h3⟩ | ⟨_, h2⟩
  · rcases toLower_spec (Char.toLower c) with ⟨h1', h2', _⟩ | ⟨_, h2'⟩
    · omega
    · exact h2'
  · rw [h2]
    exact h2

theorem toLower_eq_self_of_lower {c : Char} (h : 97 ≤ c.toNat) :
    Char.toLower c = c := by
  rcases toLower_spec c with ⟨_, h2, _⟩ | ⟨_, h2⟩
  · omega
  · exact h2

theorem toLower_toNat_le {c : Char} :
    (Char.toLower c).toNat = c.toNat ∨ (Char.toLower c).toNat = c.toNat + 32 ∧ c.toNat ≤ 90 := by
  rcases toLower_spec c with ⟨_, h2, h3⟩ | ⟨_, h2⟩
  · exact Or.inr ⟨h3, h2⟩
  · exact Or.inl (by rw [h2])

/-- The three typographic quote characters folded by `normalize_word`,
by code point: `’` is 8217, `“` is 8220, `”` is 8221. -/
def fancyQuote (c : Char) : Prop :=
  c.toNat = 8217 ∨ c.toNat = 8220 ∨ c.toNat = 8221

theorem foldQuotes_eq_self {c : Char} (h : ¬fancyQuote c) : foldQuotes c = c := by
  unfold foldQuotes
  rw [if_neg, if_neg, if_neg]
  · intro he
    exact h (Or.inr (Or.inr (by rw [he]; rfl)))
  · intro he
    exact h (Or.inr (Or.inl (by rw [he]; rfl)))
  · intro he
    exact h (Or.inl (by rw [he]; rfl))

theorem not_fancy_foldQuotes (c : Char) : ¬fancyQuote (foldQuotes c) := by
  unfold foldQuotes
  by_cases h1 : c = '’'
  · rw [if_pos h1]
    rintro (h | h | h) <;> simp at h
  · rw [if_neg h1]
    by_cases h2 : c = '“'
    · rw [if_pos h2]
      rintro (h | h | h) <;> simp at h
    · rw [if_neg h2]
      by_cases h3 : c = '”'
      · rw [if_pos h3]
        rintro (h | h | h) <;> simp at h
      · rw [if_neg h3]
        rintro (h | h | h)
        · exact h1 (charToNat_inj (by rw [h]; rfl))
        · exact h2 (charToNat_inj (by rw [h]; rfl))
        · exact h3 (charToNat_inj (by rw [h]; rfl))

theorem not_fancy_toLower {c : Char} (h : ¬fancyQuote c) : ¬fancyQuote (Char.toLower c) := by
  rcases toLower_toNat_le (c := c) with he | ⟨he, hb⟩
  · intro hf
    exact h (by rwa [fancyQuote, ← he])
  · intro hf
    rcases hf with hf | hf | hf <;> (rw [he] at hf; omega)

theorem not_fancy_of_asciiAlpha {c : Char} (h : asciiAlpha c = true) : ¬fancyQuote c := by
  rw [asciiAlpha_iff] at h
  rintro (hf | hf | hf) <;> omega

theorem keepChar_of_asciiAlpha {c : Char} (h : asciiAlpha c = true) : keepChar c = true := by
  rw [asciiAlpha_iff] at h
  rw [keepChar_iff]
  omega

theorem toLower_lower_range {c : Char} (h : asciiAlpha c = true) :
    97 ≤ (Char.toLower c).toNat ∧ (Char.toLower c).toNat ≤ 122 := by
  rw [asciiAlpha_iff] at h
  rcases toLower_spec c with ⟨_, _, h3⟩ | ⟨hn, h2⟩
  · omega
  · rw [h2]
    omega

/-! ### Trimming lemmas -/

theorem dropWhile_eq_self_of_head {p : Char → Bool} {l : List Char}
    (h : ∀ c ∈ l.head?, p c = false) : l.dropWhile p = l := by
  cases l with
  | nil => rfl
  | cons a as =>
    rw [List.dropWhile_cons, if_neg]
    simp only [List.head?_cons, Option.mem_def, Option.some.injEq] at h
    simp [h a rfl]

theorem head?_dropWhile {p : Char → Bool} {l : List Char} :
    ∀ c ∈ (l.dropWhile p).head?, p c = false := by
  induction l with
  | nil => intro c hc; simp at hc
  | cons a as ih =>
    intro c hc
    rw [List.dropWhile_cons] at hc
    by_cases h : p a = true
    · rw [if_pos h] at hc
      exact ih c hc
    · rw [if_neg h] at hc
      simp only [List.head?_cons, Option.mem_def, Option.some.injEq] at hc
      simp only [Bool.not_eq_true] at h
      rw [← hc]
      exact h

theorem dropTrailing_eq_self {p : Char → Bool} {l : List Char}
    (h : ∀ c ∈ l.getLast?, p c = false) : dropTrailing p l = l := by
  unfold dropTrailing
  rw [dropWhile_eq_self_of_head, List.reverse_reverse]
  rwa [List.head?_reverse]

theorem getLast?_dropTrailing {p : Char → Bool} {l : List Char} :
    ∀ c ∈ (dropTrailing p l).getLast?, p c = false := by
  intro c hc
  unfold dropTrailing at hc
  rw [List.getLast?_reverse] at hc
  exact head?_dropWhile c hc

theorem head?_dropTrailing {p : Char → Bool} {l : List Char} :
    (dropTrailing p l).head? = none ∨ (dropTrailing p l).head? = l.head? := by
  have hpre : dropTrailing p l <+: l := by
    unfold dropTrailing
    have h := List.reverse_prefix.mpr (List.dropWhile_suffix (l := l.reverse) p)
    rwa [List.reverse_reverse] at h
  obtain ⟨t, ht⟩ := hpre
  cases hd : dropTrailing p l with
  | nil => exact Or.inl rfl
  | cons a as =>
    right
    rw [← ht, hd]
    rfl

theorem trimEnds_eq_self {p : Char → Bool} {l : List Char}
    (h1 : ∀ c ∈ l.head?, p c = false) (h2 : ∀ c ∈ l.getLast?, p c = false) :
    trimEnds p l = l := by
  unfold trimEnds
  rw [dropWhile_eq_self_of_head h1]
  exact dropTrailing_eq_self h2

theorem head?_trimEnds {p : Char → Bool} {l : List Char} :
    ∀ c ∈ (trimEnds p l).head?, p c = false := by
  intro c hc
  unfold trimEnds at hc
  rcases head?_dropTrailing (p := p) (l := l.dropWhile p) with h | h
  · rw [h] at hc
    simp at hc
  · rw [h] at hc
    exact head?_dropWhile c hc

theorem getLast?_trimEnds {p : Char → Bool} {l : List Char} :
    ∀ c ∈ (trimEnds p l).getLast?, p c = false := by
  intro c hc
  exact getLast?_dropTrailing c hc

theorem mem_trimEnds {p : Char → Bool} {l : List Char} {c : Char}
    (h : c ∈ trimEnds p l) : c ∈ l := by
  unfold trimEnds dropTrailing at h
  rw [List.mem_reverse] at h
  have h2 := (List.dropWhile_suffix p).mem h
  rw [List.mem_reverse] at h2
  exact (List.dropWhile_suffix p).mem h2

/-! ### Normalizer lemmas -/

theorem map_eq_self_of {α : Type} {f : α → α} {l : List α} (h : ∀ x ∈ l, f x = x) :
    l.map f = l := by
  conv_rhs => rw [show l = l.map id from (List.map_id l).symm]
  exact List.map_congr_left h

theorem lowerChar_of_ne {c : Char} (h : c.toNat ≠ 304) :
    lowerChar c = [Char.toLower c] := by
  unfold lowerChar
  rw [if_neg h]

theorem pyLower_eq_map {l : List Char} (h : ∀ c ∈ l, c.toNat ≠ 304) :
    l.flatMap lowerChar = l.map Char.toLower := by
  induction l with
  | nil => rfl
  | cons a as ih =>
    rw [List.flatMap_cons, List.map_cons,
      lowerChar_of_ne (h a (List.mem_cons_self _ _)),
      ih (fun c hc => h c (List.mem_cons_of_mem _ hc))]
    rfl

theorem foldQuotes_cases (c : Char) :
    (foldQuotes c).toNat = 39 ∨ (foldQuotes c).toNat = 34 ∨ foldQuotes c = c := by
  unfold foldQuotes
  split
  · left
    decide
  · split
    · right
      left
      decide
    · split
      · right
        left
        decide
      · right
        right
        rfl

theorem toLower_toNat_lt_128 {c : Char} (h : c.toNat < 128) :
    (Char.toLower c).toNat < 128 := by
  rcases toLower_toNat_le (c := c) with h2 | ⟨h2, h3⟩ <;> omega

/-- Away from U+0130 the string-level `lower()` is the character map
`Char.toLower`, so the normalizer takes its ASCII form. -/
theorem normChars_eq_ascii {l : List Char} (h : ∀ c ∈ l, c.toNat ≠ 304) :
    normChars l = (trimEnds (fun c => !keepChar c)
      ((trimEnds isSpaceChar l).map foldQuotes)).map Char.toLower := by
  unfold normChars
  apply pyLower_eq_map
  intro c hc
  have hc2 := mem_trimEnds hc
  rw [List.mem_map] at hc2
  obtain ⟨e, he, hce⟩ := hc2
  have he2 : e ∈ l := mem_trimEnds he
  rcases foldQuotes_cases e with h1 | h1 | h1
  · rw [← hce]
    omega
  · rw [← hce]
    omega
  · rw [← hce, h1]
    exact h e he2

theorem normChars_idem_ascii {l : List Char} (hl : ∀ c ∈ l, c.toNat < 128) :
    normChars (normChars l) = normChars l := by
  set m := trimEnds (fun c => !keepChar c) ((trimEnds isSpaceChar l).map foldQuotes) with hm
  have hm128 : ∀ c ∈ m, c.toNat < 128 := by
    intro c hc
    have hc2 := mem_trimEnds (hm ▸ hc)
    rw [List.mem_map] at hc2
    obtain ⟨e, he, hce⟩ := hc2
    have hel := hl e (mem_trimEnds he)
    rcases foldQuotes_cases e with h1 | h1 | h1
    · rw [← hce]
      omega
    · rw [← hce]
      omega
    · rw [← hce, h1]
      exact hel
  have hr128 : ∀ d ∈ m.map Char.toLower, d.toNat < 128 := by
    intro d hd
    rw [List.mem_map] at hd
    obtain ⟨c, hc, hcd⟩ := hd
    rw [← hcd]
    exact toLower_toNat_lt_128 (hm128 c hc)
  have h304l : ∀ c ∈ l, c.toNat ≠ 304 := by
    intro c hc
    have := hl c hc
    omega
  have h304r : ∀ d ∈ m.map Char.toLower, d.toNat ≠ 304 := by
    intro d hd
    have := hr128 d hd
    omega
  have hnl : normChars l = m.map Char.toLower := by
    rw [normChars_eq_ascii h304l, ← hm]
  have hhead : ∀ c ∈ m.head?, keepChar c = true := by
    intro c hc
    have h := head?_trimEnds (p := fun c => !keepChar c)
      (l := (trimEnds isSpaceChar l).map foldQuotes) c (hm ▸ hc)
    simpa using h
  have hlast : ∀ c ∈ m.getLast?, keepChar c = true := by
    intro c hc
    have h := getLast?_trimEnds (p := fun c => !keepChar c)
      (l := (trimEnds isSpaceChar l).map foldQuotes) c (hm ▸ hc)
    simpa using h
  have hmem : ∀ c ∈ m, ¬fancyQuote c := by
    intro c hc
    have hc2 := mem_trimEnds (hm ▸ hc)
    rw [List.mem_map] at hc2
    obtain ⟨e, _, he⟩ := hc2
    rw [← he]
    exact not_fancy_foldQuotes e
  have hh1 : ∀ d ∈ (m.map Char.toLower).head?, isSpaceChar d = false := by
    intro d hd
    rw [List.head?_map, Option.mem_def, Option.map_eq_some'] at hd
    obtain ⟨c, hc, hcd⟩ := hd
    rw [← hcd]
    exact not_space_of_keepChar (keepChar_toLower (hhead c hc))
  have hh2 : ∀ d ∈ (m.map Char.toLower).getLast?, isSpaceChar d = false := by
    intro d hd
    rw [List.getLast?_map, Option.mem_def, Option.map_eq_some'] at hd
    obtain ⟨c, hc, hcd⟩ := hd
    rw [← hcd]
    exact not_space_of_keepChar (keepChar_toLower (hlast c hc))
  have hk1 : ∀ d ∈ (m.map Char.toLower).head?, (!keepChar d) = false := by
    intro d hd
    rw [List.head?_map, Option.mem_def, Option.map_eq_some'] at hd
    obtain ⟨c, hc, hcd⟩ := hd
    rw [← hcd]
    simp [keepChar_toLower (hhead c hc)]
  have hk2 : ∀ d ∈ (m.map Char.toLower).getLast?, (!keepChar d) = false := by
    intro d hd
    rw [List.getLast?_map, Option.mem_def, Option.map_eq_some'] at hd
    obtain ⟨c, hc, hcd⟩ := hd
    rw [← hcd]
    simp [keepChar_toLower (hlast c hc)]
  have h1 : trimEnds isSpaceChar (m.map Char.toLower) = m.map Char.toLower :=
    trimEnds_eq_self hh1 hh2
  have h2 : (m.map Char.toLower).map foldQuotes = m.map Char.toLower := by
    apply map_eq_self_of
    intro d hd
    rw [List.mem_map] at hd
    obtain ⟨c, hc, hcd⟩ := hd
    rw [← hcd]
    exact foldQuotes_eq_self (not_fancy_toLower (hmem c hc))
  have h3 : trimEnds (fun c => !keepChar c) (m.map Char.toLower) = m.map Char.toLower :=
    trimEnds_eq_self hk1 hk2
  have h4 : (m.map Char.toLower).map Char.toLower = m.map Char.toLower := by
    apply map_eq_self_of
    intro d hd
    rw [List.mem_map] at hd
    obtain ⟨c, _, hcd⟩ := hd
    rw [← hcd]
    exact toLower_idem c
  rw [hnl, normChars_eq_ascii h304r]
  rw [h1, h2, h3, h4]

/-- On a run of ASCII letters the normalizer only lower-cases. -/
theorem normChars_of_alpha {l : List Char} (h : ∀ c ∈ l, asciiAlpha c = true) :
    normChars l = l.map Char.toLower := by
  have h304 : ∀ c ∈ l, c.toNat ≠ 304 := by
    intro c hc
    have := asciiAlpha_iff.mp (h c hc)
    omega
  rw [normChars_eq_ascii h304]
  have h1 : trimEnds isSpaceChar l = l :=
    trimEnds_eq_self
      (fun c hc => not_space_of_keepChar
        (keepChar_of_asciiAlpha (h c (List.mem_of_mem_head? hc))))
      (fun c hc => not_space_of_keepChar
        (keepChar_of_asciiAlpha (h c (List.mem_of_mem_getLast? hc))))
  have h2 : l.map foldQuotes = l := by
    apply map_eq_self_of
    intro c hc
    exact foldQuotes_eq_self (not_fancy_of_asciiAlpha (h c hc))
  have h3 : trimEnds (fun c => !keepChar c) l = l :=
    trimEnds_eq_self
      (fun c hc => by
        simp [keepChar_of_asciiAlpha (h c (List.mem_of_mem_head? hc))])
      (fun c hc => by
        simp [keepChar_of_asciiAlpha (h c (List.mem_of_mem_getLast? hc))])
  rw [h1, h2, h3]

/-! ### Split/join lemmas -/

theorem splitOnSpacedPipe_cons' {c : Char} {rest : List Char} {p : List Char}
    {ps : List (List Char)}
    (h : ∀ r, c = ' ' → rest = '|' :: ' ' :: r → False)
    (hs : splitOnSpacedPipe rest = p :: ps) :
    splitOnSpacedPipe (c :: rest) = (c :: p) :: ps := by
  rw [splitOnSpacedPipe.eq_2 c rest h, hs]

theorem splitOnSpacedPipe_of_no_pipe {l : List Char} (h : '|' ∉ l) :
    splitOnSpacedPipe l = [l] := by
  induction l with
  | nil => rfl
  | cons a as ih =>
    have hne : ∀ r, a = ' ' → as = '|' :: ' ' :: r → False := by
      intro r _ has
      exact h (List.mem_cons_of_mem _ (has ▸ List.mem_cons_self _ _))
    have has : '|' ∉ as := fun hm => h (List.mem_cons_of_mem _ hm)
    exact splitOnSpacedPipe_cons' hne (ih has)

theorem splitOnSpacedPipe_append {x r : List Char} (h : '|' ∉ x) :
    splitOnSpacedPipe (x ++ ' ' :: '|' :: ' ' :: r) = x :: splitOnSpacedPipe r := by
  induction x with
  | nil =>
    rw [List.nil_append, splitOnSpacedPipe.eq_1]
  | cons a xs ih =>
    have hxs : '|' ∉ xs := fun hm => h (List.mem_cons_of_mem _ hm)
    have hres := ih hxs
    have hne : ∀ rr, a = ' ' → xs ++ ' ' :: '|' :: ' ' :: r = '|' :: ' ' :: rr → False := by
      intro rr _ heq
      cases xs with
      | nil =>
        rw [List.nil_append] at heq
        injection heq with h1 _
        exact absurd h1 (by decide)
      | cons b bs =>
        rw [List.cons_append] at heq
        injection heq with h1 _
        exact h (h1 ▸ List.mem_cons_of_mem _ (List.mem_cons_self _ _))
    exact splitOnSpacedPipe_cons' hne hres

theorem splitOnSpacedPipe_joinCore {L : List (List Char)}
    (h : ∀ x ∈ L, '|' ∉ x) (hne : L ≠ []) :
    splitOnSpacedPipe (joinCore [' ', '|', ' '] L) = L := by
  induction L with
  | nil => exact absurd rfl hne
  | cons x ys ih =>
    cases ys with
    | nil =>
      show splitOnSpacedPipe x = [x]
      exact splitOnSpacedPipe_of_no_pipe (h x (List.mem_cons_self _ _))
    | cons y ys' =>
      show splitOnSpacedPipe (x ++ [' ', '|', ' '] ++ joinCore [' ', '|', ' '] (y :: ys'))
        = x :: (y :: ys')
      rw [List.append_assoc]
      rw [show [' ', '|', ' '] ++ joinCore [' ', '|', ' '] (y :: ys')
        = ' ' :: '|' :: ' ' :: joinCore [' ', '|', ' '] (y :: ys') from rfl]
      rw [splitOnSpacedPipe_append (h x (List.mem_cons_self _ _))]
      rw [ih (fun z hz => h z (List.mem_cons_of_mem _ hz)) (List.cons_ne_nil _ _)]

theorem splitOnPipe_no_pipe {l : List Char} : ∀ p ∈ splitOnPipe l, '|' ∉ p := by
  induction l using splitOnPipe.induct with
  | case1 rest ih =>
    intro p hp
    rw [splitOnPipe.eq_1] at hp
    rcases List.mem_cons.mp hp with h | h
    · rw [h]; exact List.not_mem_nil _
    · exact ih p h
  | case2 c rest hne hnil ih =>
    intro p hp
    rw [splitOnPipe.eq_2 c rest hne, hnil] at hp
    rcases List.mem_cons.mp hp with h | h
    · rw [h]
      intro hm
      rcases List.mem_cons.mp hm with h2 | h2
      · exact hne h2.symm
      · exact List.not_mem_nil _ h2
    · exact absurd h (List.not_mem_nil _)
  | case3 c rest hne p' ps heq ih =>
    intro p hp
    rw [splitOnPipe.eq_2 c rest hne, heq] at hp
    rcases List.mem_cons.mp hp with h | h
    · rw [h]
      intro hm
      rcases List.mem_cons.mp hm with h2 | h2
      · exact hne h2.symm
      · exact ih p' (heq ▸ List.mem_cons_self _ _) h2
    · exact ih p (heq ▸ List.mem_cons_of_mem _ h)
  | case4 =>
    intro p hp
    rcases List.mem_cons.mp hp with h | h
    · rw [h]; exact List.not_mem_nil _
    · exact absurd h (List.not_mem_nil _)

theorem joinCore_length (sep : List Char) (L : List (List Char)) :
    (joinCore sep L).length = (L.map List.length).sum + sep.length * (L.length - 1) := by
  induction L with
  | nil => simp [joinCore]
  | cons x ys ih =>
    cases ys with
    | nil => simp [joinCore]
    | cons y ys' =>
      show (x ++ sep ++ joinCore sep (y :: ys')).length = _
      rw [List.length_append, List.length_append, ih]
      simp only [List.map_cons, List.sum_cons, List.length_cons]
      have h1 : ys'.length + 1 - 1 = ys'.length := by omega
      have h2 : ys'.length + 1 + 1 - 1 = ys'.length + 1 := by omega
      rw [h1, h2, Nat.mul_add, Nat.mul_one]
      omega

theorem joinCore_length_lt {sep : List Char} {P Q : List (List Char)}
    (hQ : ∀ q ∈ Q, q ≠ []) (hne : Q ≠ []) :
    (joinCore sep P).length < (joinCore sep (P ++ Q)).length := by
  rw [joinCore_length, joinCore_length, List.map_append, List.sum_append,
    List.length_append]
  have h1 : 1 ≤ (Q.map List.length).sum := by
    cases Q with
    | nil => exact absurd rfl hne
    | cons q qs =>
      have hq : 0 < q.length := List.length_pos.mpr (hQ q (List.mem_cons_self _ _))
      simp only [List.map_cons, List.sum_cons]
      omega
  have hmul : sep.length * (P.length - 1) ≤ sep.length * (P.length + Q.length - 1) :=
    Nat.mul_le_mul_left _ (by omega)
  calc (P.map List.length).sum + sep.length * (P.length - 1)
      ≤ (P.map List.length).sum + sep.length * (P.length + Q.length - 1) :=
        Nat.add_le_add_left hmul _
    _ < (P.map List.length).sum + (Q.map List.length).sum
        + sep.length * (P.length + Q.length - 1) := by omega

theorem data_eq_nil_iff {s : String} : s.data = [] ↔ s = "" := by
  constructor
  · intro h
    exact String.ext h
  · intro h
    rw [h]

/-- Appending at least one non-empty piece strictly lengthens the
joined string, so the rejoined column differs from the original. -/
theorem pyJoin_append_ne {parts extras : List String}
    (hq : ∀ e ∈ extras, e ≠ "") (hne : extras ≠ []) :
    pyJoin " | " (parts ++ extras) ≠ pyJoin " | " parts := by
  intro heq
  have hd : joinCore (" | ".data) ((parts ++ extras).map String.data)
      = joinCore (" | ".data) (parts.map String.data) := congrArg String.data heq
  have hlt : (joinCore (" | ".data) (parts.map String.data)).length
      < (joinCore (" | ".data) (parts.map String.data ++ extras.map String.data)).length := by
    apply joinCore_length_lt
    · intro q hqm
      rw [List.mem_map] at hqm
      obtain ⟨e, he, hed⟩ := hqm
      rw [← hed]
      intro hnil
      exact hq e he (data_eq_nil_iff.mp hnil)
    · intro hnil
      rw [List.map_eq_nil_iff] at hnil
      exact hne hnil
  rw [← List.map_append] at hlt
  rw [hd] at hlt
  exact Nat.lt_irrefl _ hlt

/-- Rejoining a list of non-empty, pipe-free pieces and re-parsing the
column yields the pieces back. -/
theorem transParts_pyJoin {L : List String}
    (h : ∀ x ∈ L, x ≠ "" ∧ '|' ∉ x.data) :
    transParts (pyJoin " | " L) = L := by
  cases L with
  | nil => rfl
  | cons x ys =>
    show ((splitOnSpacedPipe (pyJoin " | " (x :: ys)).data).map
      (fun l => (⟨l⟩ : String))).filter (fun p => p != "") = x :: ys
    rw [show (pyJoin " | " (x :: ys)).data
      = joinCore [' ', '|', ' '] ((x :: ys).map String.data) from rfl]
    rw [splitOnSpacedPipe_joinCore ?hpipe ?hne]
    case hpipe =>
      intro q hqm
      rw [List.mem_map] at hqm
      obtain ⟨e, he, hed⟩ := hqm
      rw [← hed]
      exact (h e he).2
    case hne =>
      intro hnil
      simp at hnil
    rw [List.map_map]
    have hid : ((x :: ys).map ((fun l => (⟨l⟩ : String)) ∘ String.data)) = x :: ys :=
      map_eq_self_of (fun a _ => rfl)
    rw [hid]
    exact List.filter_eq_self.mpr (fun a ha => by simpa using (h a ha).1)

/-- Parsing a pipe-free column: the whole string is the single piece,
kept when non-empty. -/
theorem transParts_single {t : String} (hp : '|' ∉ t.data) :
    transParts t = if t = "" then [] else [t] := by
  show ((splitOnSpacedPipe t.data).map (fun l => (⟨l⟩ : String))).filter
      (fun p => p != "") = _
  rw [splitOnSpacedPipe_of_no_pipe hp]
  by_cases ht : t = ""
  · subst ht
    rfl
  · rw [if_neg ht]
    rw [show ([t.data].map fun l => (⟨l⟩ : String)) = [t] from rfl]
    rw [List.filter_cons]
    simp [ht]

/-- The pieces produced from the edit box are non-empty and pipe-free. -/
theorem newPieces_shape {text : String} :
    ∀ p ∈ newPieces text, p ≠ "" ∧ '|' ∉ p.data := by
  intro p hp
  unfold newPieces at hp
  rw [List.mem_filter] at hp
  obtain ⟨hmem, hnp⟩ := hp
  constructor
  · simpa using hnp
  · rw [List.mem_map] at hmem
    obtain ⟨q, hq, hqp⟩ := hmem
    unfold pySplitPipe at hq
    rw [List.mem_map] at hq
    obtain ⟨piece, hpiece, hqe⟩ := hq
    intro hbar
    rw [← hqp] at hbar
    have hq2 : (pyStrip q).data = trimEnds isSpaceChar q.data := rfl
    rw [hq2] at hbar
    have hmem2 := mem_trimEnds hbar
    rw [← hqe] at hmem2
    exact splitOnPipe_no_pipe piece hpiece hmem2

/-! ### The merge loop of `db_update_translations_for_id` -/

theorem mergeFold_all_mem {nps acc : List String}
    (h : ∀ np ∈ nps, np ∈ acc) :
    nps.foldl (fun acc np => if np ∈ acc then acc else acc ++ [np]) acc = acc := by
  induction nps generalizing acc with
  | nil => rfl
  | cons np rest ih =>
    rw [List.foldl_cons, if_pos (h np (List.mem_cons_self _ _))]
    exact ih (fun q hq => h q (List.mem_cons_of_mem _ hq))

theorem mergeFold_structure (nps : List String) (acc : List String) :
    ∃ extras, nps.foldl (fun acc np => if np ∈ acc then acc else acc ++ [np]) acc
        = acc ++ extras
      ∧ (∀ e ∈ extras, e ∈ nps ∧ e ∉ acc)
      ∧ ((∃ np ∈ nps, np ∉ acc) → extras ≠ []) := by
  induction nps generalizing acc with
  | nil =>
    refine ⟨[], by simp, by simp, ?_⟩
    rintro ⟨np, hnp, _⟩
    exact absurd hnp (List.not_mem_nil np)
  | cons np rest ih =>
    by_cases hin : np ∈ acc
    · rw [List.foldl_cons, if_pos hin]
      obtain ⟨extras, he, hmem, hne⟩ := ih acc
      refine ⟨extras, he, ?_, ?_⟩
      · exact fun e hee => ⟨List.mem_cons_of_mem _ (hmem e hee).1, (hmem e hee).2⟩
      · rintro ⟨q, hq, hqa⟩
        rcases List.mem_cons.mp hq with h | h
        · exact absurd (h ▸ hin) hqa
        · exact hne ⟨q, h, hqa⟩
    · rw [List.foldl_cons, if_neg hin]
      obtain ⟨extras, he, hmem, _⟩ := ih (acc ++ [np])
      refine ⟨np :: extras, ?_, ?_, fun _ => List.cons_ne_nil _ _⟩
      · rw [he, List.append_assoc]
        rfl
      · intro e hee
        rcases List.mem_cons.mp hee with h | h
        · exact ⟨h ▸ List.mem_cons_self _ _, h ▸ hin⟩
        · obtain ⟨h1, h2⟩ := hmem e h
          exact ⟨List.mem_cons_of_mem _ h1, fun ha => h2 (List.mem_append_left _ ha)⟩

theorem mergeFold_nodup {nps acc : List String} (h : acc.Nodup) :
    (nps.foldl (fun acc np => if np ∈ acc then acc else acc ++ [np]) acc).Nodup := by
  induction nps generalizing acc with
  | nil => exact h
  | cons np rest ih =>
    rw [List.foldl_cons]
    by_cases hin : np ∈ acc
    · rw [if_pos hin]
      exact ih h
    · rw [if_neg hin]
      apply ih
      rw [List.nodup_append]
      refine ⟨h, List.nodup_singleton _, ?_⟩
      simp [hin]

/-! ### Lexicographic order lemmas -/

theorem lexLt_irrefl (l : List Char) : lexLt l l = false := by
  induction l with
  | nil => rfl
  | cons a as ih =>
    show (if a.toNat < a.toNat then true
      else if a.toNat < a.toNat then false else lexLt as as) = false
    rw [if_neg (Nat.lt_irrefl _), if_neg (Nat.lt_irrefl _)]
    exact ih

theorem lexLt_trans {a : List Char} : ∀ {b c : List Char},
    lexLt a b = true → lexLt b c = true → lexLt a c = true := by
  induction a with
  | nil =>
    intro b c hab hbc
    cases b with
    | nil => exact absurd hab (by rw [lexLt_irrefl]; simp)
    | cons y ys =>
      cases c with
      | nil => exact absurd hbc (by simp [lexLt])
      | cons z zs => rfl
  | cons x xs ih =>
    intro b c hab hbc
    cases b with
    | nil => exact absurd hab (by simp [lexLt])
    | cons y ys =>
      cases c with
      | nil => exact absurd hbc (by simp [lexLt])
      | cons z zs =>
        show (if x.toNat < z.toNat then true
          else if z.toNat < x.toNat then false else lexLt xs zs) = true
        have hab' : (if x.toNat < y.toNat then true
          else if y.toNat < x.toNat then false else lexLt xs ys) = true := hab
        have hbc' : (if y.toNat < z.toNat then true
          else if z.toNat < y.toNat then false else lexLt ys zs) = true := hbc
        by_cases h1 : x.toNat < y.toNat
        · by_cases h2 : y.toNat < z.toNat
          · rw [if_pos (by omega)]
          · rw [if_neg h2] at hbc'
            by_cases h3 : z.toNat < y.toNat
            · rw [if_pos h3] at hbc'
              exact absurd hbc' (by simp)
            · rw [if_pos (by omega)]
        · rw [if_neg h1] at hab'
          by_cases h1' : y.toNat < x.toNat
          · rw [if_pos h1'] at hab'
            exact absurd hab' (by simp)
          · rw [if_neg h1'] at hab'
            by_cases h2 : y.toNat < z.toNat
            · rw [if_pos (by omega)]
            · rw [if_neg h2] at hbc'
              by_cases h3 : z.toNat < y.toNat
              · rw [if_pos h3] at hbc'
                exact absurd hbc' (by simp)
              · rw [if_neg h3] at hbc'
                rw [if_neg (by omega), if_neg (by omega)]
                exact ih hab' hbc'

theorem eq_of_not_lexLt {a : List Char} : ∀ {b : List Char},
    lexLt a b = false → lexLt b a = false → a = b := by
  induction a with
  | nil =>
    intro b hab _
    cases b with
    | nil => rfl
    | cons y ys => exact absurd hab (by simp [lexLt])
  | cons x xs ih =>
    intro b hab hba
    cases b with
    | nil => exact absurd hba (by simp [lexLt])
    | cons y ys =>
      have hab' : (if x.toNat < y.toNat then true
        else if y.toNat < x.toNat then false else lexLt xs ys) = false := hab
      have hba' : (if y.toNat < x.toNat then true
        else if x.toNat < y.toNat then false else lexLt ys xs) = false := hba
      by_cases h1 : x.toNat < y.toNat
      · rw [if_pos h1] at hab'
        exact absurd hab' (by simp)
      · by_cases h2 : y.toNat < x.toNat
        · rw [if_pos h2] at hba'
          exact absurd hba' (by simp)
        · rw [if_neg h1, if_neg h2] at hab'
          rw [if_neg h2, if_neg h1] at hba'
          have hxy : x = y := charToNat_inj (by omega)
          rw [hxy, ih hab' hba']

/-- The relation by which Python's `sorted` orders strings. -/
instance pyOrderTotal : IsTotal String (fun a b => pyStrLt b a = false) := by
  constructor
  intro a b
  by_cases h1 : pyStrLt b a = false
  · exact Or.inl h1
  · right
    rw [Bool.not_eq_false] at h1
    by_contra h2
    rw [Bool.not_eq_false] at h2
    have h3 : lexLt a.data a.data = true := lexLt_trans h2 h1
    rw [lexLt_irrefl] at h3
    exact Bool.false_ne_true h3

instance pyOrderTrans : IsTrans String (fun a b => pyStrLt b a = false) := by
  constructor
  intro a b c hab hbc
  by_contra hca
  rw [Bool.not_eq_false] at hca
  by_cases h : lexLt a.data b.data = true
  · have h2 : lexLt c.data b.data = true := lexLt_trans hca h
    rw [show pyStrLt c b = lexLt c.data b.data from rfl, h2] at hbc
    exact absurd hbc (by simp)
  · rw [Bool.not_eq_true] at h
    have hba : lexLt b.data a.data = false := hab
    have heq : a.data = b.data := eq_of_not_lexLt h hba
    have h2 : lexLt c.data b.data = true := by
      rw [← heq]
      exact hca
    rw [show pyStrLt c b = lexLt c.data b.data from rfl, h2] at hbc
    exact absurd hbc (by simp)

/-! ### Tokenizer run lemmas -/

theorem alphaRunsGo_sound {l : List Char} : ∀ {cur : List Char},
    (∀ c ∈ cur, asciiAlpha c = true) →
    ∀ r ∈ alphaRunsGo cur l, r ≠ [] ∧ ∀ c ∈ r, asciiAlpha c = true := by
  induction l with
  | nil =>
    intro cur hcur r hr
    unfold alphaRunsGo at hr
    by_cases hc : cur = []
    · rw [if_pos hc] at hr
      exact absurd hr (List.not_mem_nil _)
    · rw [if_neg hc] at hr
      rcases List.mem_cons.mp hr with h | h
      · subst h
        refine ⟨by simpa using hc, ?_⟩
        intro c hcm
        exact hcur c (List.mem_reverse.mp hcm)
      · exact absurd h (List.not_mem_nil _)
  | cons a as ih =>
    intro cur hcur r hr
    unfold alphaRunsGo at hr
    by_cases ha : asciiAlpha a = true
    · rw [if_pos ha] at hr
      refine ih ?_ r hr
      intro c hc
      rcases List.mem_cons.mp hc with h | h
      · exact h ▸ ha
      · exact hcur c h
    · rw [if_neg ha] at hr
      by_cases hc : cur = []
      · rw [if_pos hc] at hr
        exact ih (by simp) r hr
      · rw [if_neg hc] at hr
        rcases List.mem_cons.mp hr with h | h
        · subst h
          refine ⟨by simpa using hc, ?_⟩
          intro c hcm
          exact hcur c (List.mem_reverse.mp hcm)
        · exact ih (by simp) r h

theorem alphaRuns_sound {l : List Char} {r : List Char} (h : r ∈ alphaRuns l) :
    r ≠ [] ∧ ∀ c ∈ r, asciiAlpha c = true :=
  alphaRunsGo_sound (by simp) r h

/-- Membership in the tokenizer output, characterized by the letter runs. -/
theorem mem_tokenize {text : String} {min_len : Nat} {t : String} :
    t ∈ tokenize_text_to_unique_words text min_len ↔
      (∃ r ∈ alphaRuns text.data, normalize_word ⟨r⟩ = t) ∧ min_len ≤ t.length := by
  unfold tokenize_text_to_unique_words
  rw [List.mem_insertionSort, List.mem_dedup, List.mem_filter, List.mem_map]
  constructor
  · rintro ⟨⟨r, hr, hrt⟩, hlen⟩
    exact ⟨⟨r, hr, hrt⟩, by simpa using hlen⟩
  · rintro ⟨⟨r, hr, hrt⟩, hlen⟩
    exact ⟨⟨r, hr, hrt⟩, by simpa using hlen⟩

/-! ### Store invariant preservation -/

theorem transParts_mem_ne_empty {t p : String} (h : p ∈ transParts t) : p ≠ "" := by
  unfold transParts at h
  rw [List.mem_filter] at h
  simpa using h.2

theorem empty_not_mem_transParts (t : String) : "" ∉ transParts t :=
  fun h => transParts_mem_ne_empty h rfl

theorem storeInv_upsert {s : Store} {w t now : String}
    (h : storeInv s) (hp : '|' ∉ t.data) :
    storeInv (db_add_or_update_word s w t now) := by
  unfold db_add_or_update_word
  split
  · exact h
  · split
    next row hf =>
      have hrow : row ∈ s.recs := List.mem_of_find?_eq_some hf
      obtain ⟨hnd, hpf⟩ := h row hrow
      split
      next hcond =>
        intro r hr
        rw [List.mem_map] at hr
        obtain ⟨r0, hr0, hr0e⟩ := hr
        by_cases hword : r0.word = pyStrip w
        · rw [if_pos hword] at hr0e
          rw [← hr0e]
          have hparts : transParts (pyJoin " | " (transParts row.translations ++ [t]))
              = transParts row.translations ++ [t] := by
            apply transParts_pyJoin
            intro x hx
            rcases List.mem_append.mp hx with hx1 | hx1
            · exact ⟨transParts_mem_ne_empty hx1, hpf x hx1⟩
            · rw [List.mem_singleton.mp hx1]
              exact ⟨hcond.1, hp⟩
          show (transParts (pyJoin " | " (transParts row.translations ++ [t]))).Nodup ∧ _
          rw [hparts]
          constructor
          · rw [List.nodup_append]
            exact ⟨hnd, List.nodup_singleton _, by simp [hcond.2]⟩
          · intro p hpm
            rcases List.mem_append.mp hpm with h1 | h1
            · exact hpf p h1
            · rw [List.mem_singleton.mp h1]
              exact hp
        · rw [if_neg hword] at hr0e
          rw [← hr0e]
          exact h r0 hr0
      next hcond => exact h
    next hf =>
      intro r hr
      rcases List.mem_append.mp hr with hm | hm
      · exact h r hm
      · have hr2 : r = ⟨s.nextId, pyStrip w, t, now, false⟩ := List.mem_singleton.mp hm
        rw [hr2]
        show (transParts t).Nodup ∧ ∀ p ∈ transParts t, '|' ∉ p.data
        rw [transParts_single hp]
        by_cases ht : t = ""
        · rw [if_pos ht]
          exact ⟨List.nodup_nil, by simp⟩
        · rw [if_neg ht]
          refine ⟨List.nodup_singleton _, ?_⟩
          intro p hpm
          rw [List.mem_singleton.mp hpm]
          exact hp

theorem storeInv_merge {s : Store} {rowid : Nat} {txt : String}
    (h : storeInv s) :
    storeInv (db_update_translations_for_id s rowid txt) := by
  unfold db_update_translations_for_id
  split
  · exact h
  next row hf =>
    have hrow : row ∈ s.recs := List.mem_of_find?_eq_some hf
    obtain ⟨hnd, hpf⟩ := h row hrow
    split
    next hcond =>
      intro r hr
      rw [List.mem_map] at hr
      obtain ⟨r0, hr0, hr0e⟩ := hr
      by_cases hid : r0.id = rowid
      · rw [if_pos hid] at hr0e
        rw [← hr0e]
        obtain ⟨extras, hext, hextm, _⟩ :=
          mergeFold_structure (newPieces txt) (transParts row.translations)
        have hparts : transParts (pyJoin " | " ((newPieces txt).foldl
            (fun acc np => if np ∈ acc then acc else acc ++ [np])
            (transParts row.translations)))
            = (newPieces txt).foldl
              (fun acc np => if np ∈ acc then acc else acc ++ [np])
              (transParts row.translations) := by
          apply transParts_pyJoin
          rw [hext]
          intro x hx
          rcases List.mem_append.mp hx with hx1 | hx1
          · exact ⟨transParts_mem_ne_empty hx1, hpf x hx1⟩
          · obtain ⟨hx2, _⟩ := hextm x hx1
            obtain ⟨hne, hnp⟩ := newPieces_shape x hx2
            exact ⟨hne, hnp⟩
        show (transParts _).Nodup ∧ _
        rw [hparts]
        constructor
        · exact mergeFold_nodup hnd
        · rw [hext]
          intro p hpm
          rcases List.mem_append.mp hpm with h1 | h1
          · exact hpf p h1
          · exact (newPieces_shape p (hextm p h1).1).2
      · rw [if_neg hid] at hr0e
        rw [← hr0e]
        exact h r0 hr0
    next hcond => exact h

theorem storeInv_mark {s : Store} {w : String} (h : storeInv s) :
    storeInv (db_set_anki_created_for_word s w) := by
  intro r hr
  rw [show (db_set_anki_created_for_word s w).recs
    = s.recs.map fun r => if r.word = w then { r with anki_created := true } else r
    from rfl, List.mem_map] at hr
  obtain ⟨r0, hr0, hr0e⟩ := hr
  by_cases hw : r0.word = w
  · rw [if_pos hw] at hr0e
    rw [← hr0e]
    exact h r0 hr0
  · rw [if_neg hw] at hr0e
    rw [← hr0e]
    exact h r0 hr0

theorem storeInv_reset {s : Store} (h : storeInv s) :
    storeInv (db_reset_anki_flags s) := by
  intro r hr
  rw [show (db_reset_anki_flags s).recs
    = s.recs.map fun r => { r with anki_created := false } from rfl, List.mem_map] at hr
  obtain ⟨r0, hr0, hr0e⟩ := hr
  rw [← hr0e]
  exact h r0 hr0

theorem storeInv_delete {s : Store} {ids : List Nat} (h : storeInv s) :
    storeInv (db_delete_words s ids) := by
  unfold db_delete_words
  by_cases hn : ids = []
  · rw [if_pos hn]
    exact h
  · rw [if_neg hn]
    intro r hr
    exact h r (List.mem_of_mem_filter hr)

theorem storeInv_applyOp {s : Store} {op : StoreOp}
    (h : storeInv s) (hg : goodOp op) : storeInv (applyOp s op) := by
  cases op with
  | upsert w t now => exact storeInv_upsert h hg
  | merge id txt => exact storeInv_merge h
  | mark w => exact storeInv_mark h
  | resetFlags => exact storeInv_reset h
  | delete ids => exact storeInv_delete h

theorem storeInv_runOps {ops : List StoreOp} : ∀ {s : Store},
    storeInv s → (∀ op ∈ ops, goodOp op) → storeInv (runOps s ops) := by
  induction ops with
  | nil =>
    intro s h _
    exact h
  | cons op rest ih =>
    intro s h hg
    show storeInv (runOps (applyOp s op) rest)
    exact ih (storeInv_applyOp h (hg op (List.mem_cons_self _ _)))
      (fun q hq => hg q (List.mem_cons_of_mem _ hq))

/-! ### Reduction lemmas for the store operations -/

theorem db_update_eq_of_find {s : Store} {rowid : Nat} {txt : String} {row : WordRec}
    (hf : s.recs.find? (fun r => r.id == rowid) = some row) :
    db_update_translations_for_id s rowid txt =
      if pyJoin " | " ((newPieces txt).foldl
          (fun acc np => if np ∈ acc then acc else acc ++ [np])
          (transParts row.translations)) ≠ row.translations then
        { s with recs := s.recs.map fun q =>
            if q.id = rowid then
              { q with
                translations := pyJoin " | " ((newPieces txt).foldl
                  (fun acc np => if np ∈ acc then acc else acc ++ [np])
                  (transParts row.translations)),
                anki_created := false }
            else q }
      else s := by
  unfold db_update_translations_for_id
  rw [hf]

theorem db_upsert_eq_of_find {s : Store} {w t now : String} {row : WordRec}
    (hw : w ≠ "")
    (hf : s.recs.find? (fun r => r.word == pyStrip w) = some row) :
    db_add_or_update_word s w t now =
      if t ≠ "" ∧ t ∉ transParts row.translations then
        { s with recs := s.recs.map fun r =>
            if r.word = pyStrip w then
              { r with
                translations := pyJoin " | " (transParts row.translations ++ [t]),
                anki_created := false }
            else r }
      else s := by
  unfold db_add_or_update_word
  rw [if_neg hw, hf]

theorem db_upsert_eq_of_not_found {s : Store} {w t now : String}
    (hw : w ≠ "")
    (hf : s.recs.find? (fun r => r.word == pyStrip w) = none) :
    db_add_or_update_word s w t now =
      { recs := s.recs ++ [⟨s.nextId, pyStrip w, t, now, false⟩],
        nextId := s.nextId + 1 } := by
  unfold db_add_or_update_word
  rw [if_neg hw, hf]

/-! ### The claims -/

/-- Counterexample to claim C7: the normalizer is not idempotent on
full Unicode input.  For `"İ"` (U+0130): stripping and quote folding
are no-ops, the edge-sub keeps the character (it is a word character),
and `str.lower()` expands it — per Unicode SpecialCasing, as CPython
implements — to `i` (U+0069) followed by COMBINING DOT ABOVE (U+0307).
Re-normalizing that output strips the trailing combining mark, which is
not a word character, leaving just `"i"`. -/
theorem C7_counterexample :
    normalize_word (normalize_word "İ") ≠ normalize_word "İ" ∧
    normalize_word "İ" = ⟨[Char.ofNat 105, Char.ofNat 775]⟩ ∧
    normalize_word (normalize_word "İ") = "i" := by decide

/-- Claim C7 (amended): the Normalizer is idempotent on ASCII input —
for every string `s` whose code points are below 128,
`normalize_word (normalize_word s) = normalize_word s`.  On full
Unicode the property fails, because `str.lower()` can expand a
character into a sequence ending in a combining mark that the edge-sub
of a second pass then strips. -/
theorem C7_normalize_idempotent_ascii (s : String)
    (h : ∀ c ∈ s.data, c.toNat < 128) :
    normalize_word (normalize_word s) = normalize_word s :=
  congrArg String.mk (normChars_idem_ascii h)

/-- Witness for C7's amended idempotence at a concrete ASCII string. -/
theorem C7_witness :
    (∀ c ∈ " Hello! ".data, c.toNat < 128) ∧
    normalize_word (normalize_word " Hello! ") = normalize_word " Hello! " :=
  ⟨by decide, C7_normalize_idempotent_ascii " Hello! " (by decide)⟩

/-- Claim C10: every token returned by the tokenizer is a fixed point of
the normalizer, consists solely of lowercase ASCII letters (code points
97–122), and has length at least `min_len`. -/
theorem C10_tokens_fixed_points {text : String} {min_len : Nat} {t : String}
    (h : t ∈ tokenize_text_to_unique_words text min_len) :
    normalize_word t = t ∧ (∀ c ∈ t.data, 97 ≤ c.toNat ∧ c.toNat ≤ 122) ∧
      min_len ≤ t.length := by
  obtain ⟨⟨r, hr, hrt⟩, hlen⟩ := mem_tokenize.mp h
  obtain ⟨hne, halpha⟩ := alphaRuns_sound hr
  refine ⟨?_, ?_, hlen⟩
  · rw [← hrt]
    refine congrArg String.mk (normChars_idem_ascii ?_)
    intro c hc
    have := asciiAlpha_iff.mp (halpha c hc)
    omega
  · intro c hc
    rw [← hrt] at hc
    have hdata : (normalize_word (⟨r⟩ : String)).data = r.map Char.toLower := by
      show normChars r = r.map Char.toLower
      exact normChars_of_alpha halpha
    rw [hdata, List.mem_map] at hc
    obtain ⟨e, he, hec⟩ := hc
    rw [← hec]
    exact toLower_lower_range (halpha e he)

/-- Witness for C10 at a concrete input. -/
theorem C10_witness :
    "hello" ∈ tokenize_text_to_unique_words "Hello" 2 ∧
      (normalize_word "hello" = "hello" ∧
        (∀ c ∈ "hello".data, 97 ≤ c.toNat ∧ c.toNat ≤ 122) ∧
        2 ≤ "hello".length) :=
  ⟨by decide, @C10_tokens_fixed_points "Hello" 2 "hello" (by decide)⟩

/-- Claim C8: the tokenizer extracts the maximal ASCII letter runs,
normalizes each, discards normalized tokens shorter than `min_len`, and
returns the distinct survivors in strictly increasing lexicographic
order; in particular on `"Hello hello, WORLD!"` with `min_len = 2` it
yields exactly `["hello", "world"]`. -/
theorem C8_tokenize_spec :
    tokenize_text_to_unique_words "Hello hello, WORLD!" 2 = ["hello", "world"] ∧
    (∀ (text : String) (min_len : Nat) (t : String),
      t ∈ tokenize_text_to_unique_words text min_len ↔
        (∃ r ∈ alphaRuns text.data, normalize_word ⟨r⟩ = t) ∧ min_len ≤ t.length) ∧
    (∀ (text : String) (min_len : Nat),
      (tokenize_text_to_unique_words text min_len).Pairwise
        fun a b => pyStrLt a b = true) := by
  refine ⟨by decide, fun text min_len t => mem_tokenize, ?_⟩
  intro text min_len
  have hsorted : (tokenize_text_to_unique_words text min_len).Pairwise
      (fun a b => pyStrLt b a = false) := by
    unfold tokenize_text_to_unique_words
    exact List.sorted_insertionSort _ _
  have hnodup : (tokenize_text_to_unique_words text min_len).Nodup := by
    unfold tokenize_text_to_unique_words
    exact ((List.perm_insertionSort _ _).nodup_iff).mpr (List.nodup_dedup _)
  refine (hsorted.and hnodup).imp ?_
  intro a b hab
  obtain ⟨h1, h2⟩ := hab
  by_cases h3 : pyStrLt a b = true
  · exact h3
  · rw [Bool.not_eq_true] at h3
    exact absurd (String.ext (eq_of_not_lexLt h3 h1)) h2

/-- Counterexample to claim C2: a whitespace-only word does not leave
the store unchanged — `db_add_or_update_word` only returns early on the
empty string, so `" "` is trimmed to `""` and inserted as a record. -/
theorem C2_counterexample :
    db_add_or_update_word emptyStore " " "g" "ts" ≠ emptyStore := by decide

/-- Claim C2 (amended): the upsert trims the word and uses the trimmed
string as the key, but the no-op guard tests the *untrimmed* word: only
the empty string is a no-op; a whitespace-only word is trimmed to `""`
and creates (or merges into) a record whose word key is the empty
string. -/
theorem C2_upsert_empty_guard :
    (∀ (s : Store) (t now : String), db_add_or_update_word s "" t now = s) ∧
    (db_add_or_update_word emptyStore " cat " "g" "ts").recs
      = [⟨1, "cat", "g", "ts", false⟩] ∧
    (db_add_or_update_word emptyStore " " "g" "ts").recs
      = [⟨1, "", "g", "ts", false⟩] := by
  refine ⟨?_, by decide, by decide⟩
  intro s t now
  unfold db_add_or_update_word
  rw [if_pos rfl]

/-- Claim C6: the translation gateway fails whenever the provider's
status is not 200 or the returned text is empty or echoes the input
word, and on failure `TranslationManager.translate` leaves the store
untouched and reports failure. -/
theorem C6_translation_failure_no_store_change (s : Store) (word now : String)
    (r : ProviderReply)
    (h : r.status ≠ 200 ∨ ∀ tr, r.translatedText = some tr → (tr = "" ∨ tr = word)) :
    TranslationManager.translate s word (some r) now = (s, false) := by
  have hnone : translate_online_mymemory word (some r) = none := by
    show (if r.status = 200 then
        match r.translatedText with
        | some tr => if tr ≠ "" ∧ tr ≠ word then some tr else none
        | none => none
      else none) = none
    rcases h with h | h
    · rw [if_neg h]
    · by_cases hs : r.status = 200
      · rw [if_pos hs]
        cases ht : r.translatedText with
        | none => rfl
        | some tr =>
          show (if tr ≠ "" ∧ tr ≠ word then some tr else none) = none
          rcases h tr ht with h2 | h2
          · rw [if_neg]
            intro hcon
            exact hcon.1 h2
          · rw [if_neg]
            intro hcon
            exact hcon.2 h2
      · rw [if_neg hs]
  unfold TranslationManager.translate
  rw [hnone]

/-- Witness for C6: a 500 status and an echoed translation both fail
without touching the store. -/
theorem C6_witness :
    TranslationManager.translate emptyStore "cat" (some ⟨500, some "gato"⟩) "ts"
        = (emptyStore, false) ∧
    TranslationManager.translate emptyStore "cat" (some ⟨200, some "cat"⟩) "ts"
        = (emptyStore, false) :=
  ⟨C6_translation_failure_no_store_change emptyStore "cat" "ts" ⟨500, some "gato"⟩
      (Or.inl (by decide)),
    C6_translation_failure_no_store_change emptyStore "cat" "ts" ⟨200, some "cat"⟩
      (Or.inr (fun tr htr => Or.inr (by
        injection htr with h
        exact h.symm)))⟩

/-- Claim C9: a record's `id`, `word` and `added_at` are assigned once,
at creation, and no later operation changes them — merging translations,
marking exported, and resetting flags preserve the creation fields of
every record, and an upsert either preserves them all or appends one new
record carrying the fresh id and the current timestamp. -/
theorem C9_creation_fields_immutable :
    (∀ (s : Store) (rowid : Nat) (txt : String),
      (db_update_translations_for_id s rowid txt).recs.map recKey
        = s.recs.map recKey) ∧
    (∀ (s : Store) (w : String),
      (db_set_anki_created_for_word s w).recs.map recKey = s.recs.map recKey) ∧
    (∀ s : Store, (db_reset_anki_flags s).recs.map recKey = s.recs.map recKey) ∧
    (∀ (s : Store) (w t now : String),
      (db_add_or_update_word s w t now).recs.map recKey = s.recs.map recKey ∨
      (db_add_or_update_word s w t now).recs.map recKey
        = s.recs.map recKey ++ [(s.nextId, pyStrip w, now)]) := by
  refine ⟨?_, ?_, ?_, ?_⟩
  · intro s rowid txt
    unfold db_update_translations_for_id
    split
    · rfl
    next row hf =>
      split
      next =>
        show (s.recs.map _).map recKey = s.recs.map recKey
        rw [List.map_map]
        apply List.map_congr_left
        intro q hq
        show recKey (if q.id = rowid then _ else q) = recKey q
        by_cases hid : q.id = rowid
        · rw [if_pos hid]
          rfl
        · rw [if_neg hid]
      next => rfl
  · intro s w
    show (s.recs.map _).map recKey = s.recs.map recKey
    rw [List.map_map]
    apply List.map_congr_left
    intro q hq
    show recKey (if q.word = w then _ else q) = recKey q
    by_cases hw : q.word = w
    · rw [if_pos hw]
      rfl
    · rw [if_neg hw]
  · intro s
    show (s.recs.map _).map recKey = s.recs.map recKey
    rw [List.map_map]
    exact List.map_congr_left (fun q _ => rfl)
  · intro s w t now
    unfold db_add_or_update_word
    split
    · exact Or.inl rfl
    · split
      next row hf =>
        split
        next =>
          left
          show (s.recs.map _).map recKey = s.recs.map recKey
          rw [List.map_map]
          apply List.map_congr_left
          intro q hq
          show recKey (if q.word = pyStrip w then _ else q) = recKey q
          by_cases hw : q.word = pyStrip w
          · rw [if_pos hw]
            rfl
          · rw [if_neg hw]
        next => exact Or.inl rfl
      next hf =>
        right
        show (s.recs ++ [_]).map recKey = _
        rw [List.map_append]
        rfl

/-- Claim C4: upserting an existing word merges instead of duplicating —
a repeated identical upsert is a no-op leaving exactly one record, a new
translation is appended at the end preserving order, and a successful
append resets the record's exported flag to false. -/
theorem C4_upsert_merges :
    db_add_or_update_word (db_add_or_update_word emptyStore "cat" "gato" "t1")
        "cat" "gato" "t2"
      = ⟨[⟨1, "cat", "gato", "t1", false⟩], 2⟩ ∧
    db_add_or_update_word (db_add_or_update_word emptyStore "cat" "gato" "t1")
        "cat" "felino" "t2"
      = ⟨[⟨1, "cat", "gato | felino", "t1", false⟩], 2⟩ ∧
    transParts "gato | felino" = ["gato", "felino"] ∧
    (∀ (s : Store) (w t now : String) (row : WordRec),
      w ≠ "" →
      s.recs.find? (fun r => r.word == pyStrip w) = some row →
      t ≠ "" → t ∉ transParts row.translations →
      db_add_or_update_word s w t now =
        { s with recs := s.recs.map fun r =>
            if r.word = pyStrip w then
              { r with
                translations := pyJoin " | " (transParts row.translations ++ [t]),
                anki_created := false }
            else r }) := by
  refine ⟨by decide, by decide, by decide, ?_⟩
  intro s w t now row hw hf ht htm
  rw [db_upsert_eq_of_find hw hf, if_pos ⟨ht, htm⟩]

/-- Witness for C4's general merge equation: appending a new translation
to an exported record resets its flag. -/
theorem C4_witness :
    db_add_or_update_word ⟨[⟨1, "cat", "gato", "t1", true⟩], 2⟩ "cat" "felino" "t2"
      = ⟨[⟨1, "cat", "gato | felino", "t1", false⟩], 2⟩ := by
  rw [C4_upsert_merges.2.2.2 ⟨[⟨1, "cat", "gato", "t1", true⟩], 2⟩ "cat" "felino" "t2"
    ⟨1, "cat", "gato", "t1", true⟩ (by decide) (by decide) (by decide) (by decide)]
  decide

/-- Claim C5: export selection draws only from unexported records,
returns at most `limit` of them, and records exported by `export_anki`
are excluded from a later selection: on a store with five unexported and
three exported records, selecting 3 yields the first three unexported
ones, and after exporting them a selection of 10 yields exactly the
remaining two. -/
theorem C5_export_selection :
    selectForExport demoStore 3 = [("w1", "t1"), ("w3", "t3"), ("w4", "t4")] ∧
    selectForExport (export_anki demoStore 3) 10 = [("w6", "t6"), ("w8", "t8")] ∧
    (∀ (s : Store) (n : Nat),
      (selectForExport s n).length
        = min n (s.recs.countP fun r => !r.anki_created)) ∧
    (∀ (s : Store) (n : Nat) (p : String × String), p ∈ selectForExport s n →
      ∃ r ∈ s.recs, r.anki_created = false ∧ p = (r.word, r.translations)) := by
  refine ⟨by decide, by decide, ?_, ?_⟩
  · intro s n
    unfold selectForExport
    rw [List.length_map, List.length_take, List.countP_eq_length_filter]
  · intro s n p hp
    unfold selectForExport at hp
    rw [List.mem_map] at hp
    obtain ⟨r, hr, hrp⟩ := hp
    have hr2 : r ∈ s.recs.filter fun r => !r.anki_created := List.mem_of_mem_take hr
    rw [List.mem_filter] at hr2
    exact ⟨r, hr2.1, by simpa using hr2.2, hrp.symm⟩

/-- Witness for C5's selection-membership property at a concrete store. -/
theorem C5_witness :
    ∃ r ∈ demoStore.recs, r.anki_created = false
      ∧ ("w1", "t1") = (r.word, r.translations) :=
  C5_export_selection.2.2.2 demoStore 3 ("w1", "t1") (by decide)

/-- Counterexample to claim C1: starting from the empty store, upsert
`"cat"` with translation `"gato | "`, mark it exported, then merge
`"gato"`.  Every trimmed non-empty piece of `"gato"` is already in the
record's translation list (`transParts "gato | " = ["gato"]`), yet the
record is rewritten and its exported flag is reset — the code's update
condition is `new_trans != existing`, not the `changed` flag. -/
theorem C1_counterexample :
    db_set_anki_created_for_word
        (db_add_or_update_word emptyStore "cat" "gato | " "t1") "cat"
      = ⟨[⟨1, "cat", "gato | ", "t1", true⟩], 2⟩ ∧
    (∀ np ∈ newPieces "gato", np ∈ transParts "gato | ") ∧
    db_update_translations_for_id ⟨[⟨1, "cat", "gato | ", "t1", true⟩], 2⟩ 1 "gato"
      = ⟨[⟨1, "cat", "gato", "t1", false⟩], 2⟩ := by decide

/-- Claim C1 (amended): provided the record's stored translations column
is canonical — it equals the `" | "`-join of its parsed non-empty
pieces — `db_update_translations_for_id` leaves the store completely
untouched (translations and exported flag preserved) when every trimmed
non-empty piece of the text is already present, and resets the record's
exported flag to false when at least one new piece is added.  Without
the canonicity proviso the operation can rewrite the column and reset
the flag with nothing new added. -/
theorem C1_merge_flag_reset_iff_new {s : Store} {rowid : Nat} {txt : String}
    {row : WordRec}
    (hf : s.recs.find? (fun r => r.id == rowid) = some row)
    (hcanon : pyJoin " | " (transParts row.translations) = row.translations) :
    ((∀ np ∈ newPieces txt, np ∈ transParts row.translations) →
      db_update_translations_for_id s rowid txt = s) ∧
    ((∃ np ∈ newPieces txt, np ∉ transParts row.translations) →
      ∀ q ∈ (db_update_translations_for_id s rowid txt).recs,
        q.id = rowid → q.anki_created = false) := by
  constructor
  · intro hall
    rw [db_update_eq_of_find hf, mergeFold_all_mem hall, hcanon]
    rw [if_neg (fun hne => hne rfl)]
  · intro hex q hq hqid
    rw [db_update_eq_of_find hf] at hq
    obtain ⟨extras, hext, hextm, hne⟩ :=
      mergeFold_structure (newPieces txt) (transParts row.translations)
    have hextne : extras ≠ [] := hne hex
    have hnew : pyJoin " | " ((newPieces txt).foldl
        (fun acc np => if np ∈ acc then acc else acc ++ [np])
        (transParts row.translations)) ≠ row.translations := by
      rw [hext]
      intro heq
      exact pyJoin_append_ne (fun e he => (newPieces_shape e (hextm e he).1).1) hextne
        (heq.trans hcanon.symm)
    rw [if_pos hnew, List.mem_map] at hq
    obtain ⟨q0, hq0, hq0e⟩ := hq
    by_cases hid : q0.id = rowid
    · rw [if_pos hid] at hq0e
      rw [← hq0e]
    · rw [if_neg hid] at hq0e
      rw [← hq0e] at hqid
      exact absurd hqid hid

/-- Witness for C1's amended no-op guarantee: on a canonical record,
re-saving an already-present translation leaves the exported flag set. -/
theorem C1_witness :
    db_update_translations_for_id ⟨[⟨1, "cat", "gato", "t1", true⟩], 2⟩ 1 "gato"
      = ⟨[⟨1, "cat", "gato", "t1", true⟩], 2⟩ :=
  (@C1_merge_flag_reset_iff_new ⟨[⟨1, "cat", "gato", "t1", true⟩], 2⟩ 1 "gato"
    ⟨1, "cat", "gato", "t1", true⟩ (by decide) (by decide)).1 (by decide)

/-- Counterexample to claim C3: two upserts of trim-equal but distinct
translations (`"gato"` then `"gato "`) produce a record whose parsed
translation list holds two elements that are equal after trimming. -/
theorem C3_counterexample :
    db_add_or_update_word (db_add_or_update_word emptyStore "cat" "gato" "t1")
        "cat" "gato " "t2"
      = ⟨[⟨1, "cat", "gato | gato ", "t1", false⟩], 2⟩ ∧
    transParts "gato | gato " = ["gato", "gato "] ∧
    ¬ (∀ a ∈ transParts "gato | gato ", ∀ b ∈ transParts "gato | gato ",
        a ≠ b → pyStrip a ≠ pyStrip b) := by decide

/-- Claim C3 (amended): after any sequence of store operations from the
empty store in which every upsert translation argument is pipe-free, no
record's parsed translation list contains the empty string or two
elements that are *exactly* equal; compared after trimming the
invariant fails, since neither upsert nor the merge loop compares pieces
modulo trimming. -/
theorem C3_translations_invariant (ops : List StoreOp)
    (h : ∀ op ∈ ops, goodOp op) :
    storeInv (runOps emptyStore ops) ∧
    ∀ r ∈ (runOps emptyStore ops).recs, "" ∉ transParts r.translations := by
  refine ⟨storeInv_runOps ?_ h, ?_⟩
  · intro r hr
    exact absurd hr (List.not_mem_nil _)
  · intro r _
    exact empty_not_mem_transParts _

/-- Witness for C3's invariant on a concrete operation sequence. -/
theorem C3_witness :
    storeInv (runOps emptyStore
      [StoreOp.upsert "cat" "gato" "t1", StoreOp.merge 1 "felino | gato"]) ∧
    ∀ r ∈ (runOps emptyStore
      [StoreOp.upsert "cat" "gato" "t1", StoreOp.merge 1 "felino | gato"]).recs,
      "" ∉ transParts r.translations :=
  C3_translations_invariant _ (by
    intro op hop
    rcases List.mem_cons.mp hop with h | h
    · rw [h]
      show '|' ∉ "gato".data
      decide
    · rcases List.mem_cons.mp h with h2 | h2
      · rw [h2]
        exact trivial
      · exact absurd h2 (List.not_mem_nil _))
